import Mathlib

/-!
# Verification of the CSP engine in `04_CSP/Assignment.py`

This file is a shallow embedding, in Lean 4, of the constraint-satisfaction
engine of the repository (class `CSP` and the module-level helpers of
`Assignment.py`), together with proofs and refutations of the specification
claims about it.

Modelling conventions:

* Variable names and domain values are modelled as natural numbers
  (`Var`, `Val`); Python uses opaque hashable identifiers.
* A Python `set` of values is a `Finset Val`.
* The assignment dictionary (`assignment` in the source) maps every variable
  to its current candidate domain.  It is modelled as a function
  `Snapshot := Var → Finset Val` together with the key order `csp.variables`
  (a Python 3.7+ dict iterates in insertion order; `assignment` is always a
  deep copy of `self.domains`, whose insertion order is the order of
  `add_variable` calls, i.e. `csp.variables`).
* Python dictionaries with an iteration order (`self.constraints` and its
  inner dicts) are modelled as association lists.
* Mutation is modelled by state passing: every function that mutates a
  snapshot in the source returns the new snapshot.
* Python's `is not` comparison on variable names in `inference` is modelled
  as inequality (the two coincide whenever arc components are the identical
  interned key objects).
* The unbounded `while queue:` loop of `inference` and the recursion of
  `backtrack` are modelled with an explicit fuel parameter chosen large
  enough by the top-level wrappers; running out of fuel returns the
  loop-exit value and is unreachable for the wrappers' fuel.
-/

abbrev Var : Type := Nat

abbrev Val : Type := Nat

/-- The current candidate domains, i.e. the `assignment` dictionary of the
source: every variable maps to its set of still-possible values. -/
abbrev Snapshot : Type := Var → Finset Val

/-- Linear search in an association list, modelling Python dict lookup
`d[k]` (first, and in a real dict unique, entry with key `k`). -/
def dictFind {β : Type} : List (Var × β) → Var → Option β
  | [], _ => none
  | p :: rest, k => if p.1 = k then some p.2 else dictFind rest k

/-- Python dict assignment `d[k] = v`: overwrite in place (keeping the key
position) when the key exists, append otherwise. -/
def dictSet {β : Type} (l : List (Var × β)) (k : Var) (v : β) : List (Var × β) :=
  if (dictFind l k).isSome then
    l.map (fun p => if p.1 = k then (k, v) else p)
  else
    l ++ [(k, v)]

/-- The `CSP` class state: `variables` is the list of added names (in call
order, duplicates kept, mirroring `self.variables.append`), `domains` the
domain dictionary, and `constraints` the nested dictionary
`constraints[i][j] = list of legal (vi, vj) pairs`. -/
structure CSP where
  vars : List Var
  domains : Var → Finset Val
  constraints : List (Var × List (Var × List (Val × Val)))

/-- Model of `CSP()`: no variables, no domains, no constraints. -/
def CSP.empty : CSP := ⟨[], fun _ => ∅, []⟩

/-- Model of `CSP.add_variable(name, domain)` from the source: appends `name` to the
variable list, sets `domains[name] = set(domain)` and `constraints[name] = {}`.
The source performs no duplicate-name or empty-domain check. -/
def add_variable (csp : CSP) (name : Var) (domain : List Val) : CSP where
  vars := csp.vars ++ [name]
  domains := Function.update csp.domains name domain.toFinset
  constraints := dictSet csp.constraints name []

/-- The constraint table registered for the ordered pair `(i, j)`, i.e.
`self.constraints[i][j]`, when present. -/
def tableOf (csp : CSP) (i j : Var) : Option (List (Val × Val)) :=
  (dictFind csp.constraints i).bind (fun es => dictFind es j)

/-- Lookup of `self.constraints[i][j]` with `[]` standing in for the `KeyError` the
source would raise on an unregistered pair (the solver only ever looks up
registered pairs; the theorems below carry the corresponding hypotheses). -/
def tableOfD (csp : CSP) (i j : Var) : List (Val × Val) :=
  (tableOf csp i j).getD []

/-- The ordered pair `(i, j)` has a registered constraint table. -/
def Registered (csp : CSP) (i j : Var) : Prop :=
  (tableOf csp i j).isSome = true

instance (csp : CSP) (i j : Var) : Decidable (Registered csp i j) := by
  unfold Registered; infer_instance

/-- Model of `self.constraints[i].keys()`: the neighbours variable `i` has an
outgoing constraint table to, in dict insertion order. -/
def neighbors (csp : CSP) (i : Var) : List Var :=
  ((dictFind csp.constraints i).getD []).map Prod.fst

/-- Model of `CSP.get_all_arcs()`: all registered ordered pairs, in dict iteration
order (`for i in self.constraints for j in self.constraints[i]`). -/
def get_all_arcs (csp : CSP) : List (Var × Var) :=
  csp.constraints.flatMap (fun e => e.2.map (fun p => (e.1, p.1)))

/-- Python dicts cannot hold duplicate keys; an association-list `CSP`
value corresponds to a reachable Python state only if the outer and all
inner key lists are duplicate-free. -/
def CSP.WF (csp : CSP) : Prop :=
  (csp.constraints.map Prod.fst).Nodup ∧
    ∀ e ∈ csp.constraints, (e.2.map Prod.fst).Nodup

instance (csp : CSP) : Decidable csp.WF := by
  unfold CSP.WF; infer_instance

/-- Constraints are registered in both directions with mirrored tables.
The specification's data model requires the caller to register every
constraint this way (`add_all_different_constraint` does); asymmetric
registration is declared a caller error. -/
def CSP.Symmetric (csp : CSP) : Prop :=
  ∀ e ∈ csp.constraints, ∀ p ∈ e.2,
    Registered csp p.1 e.1 ∧ ∀ q ∈ p.2, (q.2, q.1) ∈ tableOfD csp p.1 e.1

instance (csp : CSP) : Decidable csp.Symmetric := by
  unfold CSP.Symmetric; infer_instance

/-- Every variable mentioned by a constraint table has been added as a
variable (always true of reachable Python states: `add_constraint_one_way`
touches `self.constraints[i]` and `self.domains[j]`, so both must exist). -/
def CSP.KeysAdded (csp : CSP) : Prop :=
  ∀ e ∈ csp.constraints, e.1 ∈ csp.vars ∧ ∀ p ∈ e.2, p.1 ∈ csp.vars

instance (csp : CSP) : Decidable csp.KeysAdded := by
  unfold CSP.KeysAdded; infer_instance

/-- The loop of `CSP.revise`: starting from a copy of `assignment[i]`, run
through the constraint table and remove from the unverified set every value
of `i` seen in a pair whose partner value is currently possible for `j`. -/
def reviseUnverified (table : List (Val × Val)) (di dj : Finset Val) : Finset Val :=
  table.foldl (fun unv p => if p.1 ∈ unv ∧ p.2 ∈ dj then unv.erase p.1 else unv) di

/-- Model of `CSP.revise(assignment, i, j)` from the source, in state-passing form:
returns the `True`/`False` result together with the snapshot after the
`assignment[i] -= unverified_domain` mutation. -/
def revise (csp : CSP) (a : Snapshot) (i j : Var) : Bool × Snapshot :=
  let unverified := reviseUnverified (tableOfD csp i j) (a i) (a j)
  if unverified ≠ ∅ then
    (true, Function.update a i (a i \ unverified))
  else
    (false, a)

/-- The `while queue:` loop of `CSP.inference` (AC-3), with fuel.  Each
iteration pops the front arc, revises it, fails on a wiped-out domain and
otherwise re-enqueues `(k, i)` for every neighbour `k` of `i` other than
`j`.  Exhausted fuel returns the loop-exit value; the wrapper `inference`
always supplies enough fuel for the loop to empty the queue or fail.
`newArcs csp i j` is the enqueued block: arcs `(k, i)` for every neighbour
`k` of `i` with `k ≠ j`, in neighbour order. -/
def newArcs (csp : CSP) (i j : Var) : List (Var × Var) :=
  ((neighbors csp i).filter (fun k => k ≠ j)).map (fun k => (k, i))

def inferenceLoop (csp : CSP) : Nat → Snapshot → List (Var × Var) → Bool × Snapshot
  | _, a, [] => (true, a)
  | 0, a, _ :: _ => (true, a)
  | fuel + 1, a, (i, j) :: rest =>
    let r := revise csp a i j
    if r.1 then
      if r.2 i = ∅ then (false, r.2)
      else inferenceLoop csp fuel r.2 (rest ++ newArcs csp i j)
    else
      inferenceLoop csp fuel a rest

/-- The set of variables that can ever appear as the first (revised)
component of an enqueued arc: neighbours named anywhere in the constraint
dictionary. -/
def neighborKeys (csp : CSP) : Finset Var :=
  (csp.constraints.flatMap (fun e => e.2.map Prod.fst)).toFinset

/-- The largest number of neighbours of any single variable. -/
def maxDeg (csp : CSP) : Nat :=
  csp.constraints.foldr (fun e m => max e.2.length m) 0

/-- Total size of the domains of the variables in `V`. -/
def domTotal (V : Finset Var) (a : Snapshot) : Nat :=
  Finset.sum V (fun v => (a v).card)

/-- Fuel sufficient for the AC-3 loop: every productive revision strictly
shrinks some tracked domain, every unproductive one shortens the queue. -/
def infFuel (csp : CSP) (a : Snapshot) (q : List (Var × Var)) : Nat :=
  (maxDeg csp + 1) * domTotal ((q.map Prod.fst).toFinset ∪ neighborKeys csp) a
    + q.length + 1

/-- Model of `CSP.inference(assignment, queue)` from the source: run the AC-3 loop
until the queue is empty (success) or some domain is revised to empty
(failure), returning the result flag and the final snapshot. -/
def inference (csp : CSP) (a : Snapshot) (q : List (Var × Var)) : Bool × Snapshot :=
  inferenceLoop csp (infFuel csp a q) a q

/-- One value in the domain of variable `i` is arc-consistent along the
registered table of `(i, j)`: some currently-possible partner value
satisfies the table. -/
def Consistent (csp : CSP) (a : Snapshot) (i j : Var) : Prop :=
  ∀ vi ∈ a i, ∃ vj ∈ a j, (vi, vj) ∈ tableOfD csp i j

/-- The whole snapshot is arc-consistent for every registered pair. -/
def ArcConsistent (csp : CSP) (a : Snapshot) : Prop :=
  ∀ i j, Registered csp i j → Consistent csp a i j

/-- The scanning loop of `CSP.select_unassigned_variable`: fold over the
assignment keys keeping `(low_score, low_var)`; `none` plays the role of
the initial `float("inf")` score. -/
def selectLoop (a : Snapshot) : List Var → Option (Nat × Var) → Option (Nat × Var)
  | [], acc => acc
  | v :: rest, acc =>
    match acc with
    | none =>
      if 1 < (a v).card then selectLoop a rest (some ((a v).card, v))
      else selectLoop a rest none
    | some (s, w) =>
      if 1 < (a v).card ∧ (a v).card < s then selectLoop a rest (some ((a v).card, v))
      else selectLoop a rest (some (s, w))

/-- Model of `CSP.select_unassigned_variable(assignment)` from the source: scan the
assignment keys (modelled by the key list, which for snapshots reached by
the solver is `csp.vars`) for the variable of smallest domain size
strictly above 1; `none` models the `NoUnassignedVariables` exception. -/
def select_unassigned_variable (keys : List Var) (a : Snapshot) : Option Var :=
  (selectLoop a keys none).map Prod.snd

/-- Model of `CSP.order_domain_values(var, assignment)`: returns `assignment[var]`.
Python set iteration order is unspecified; the model fixes the ascending
order of the values (enumerated by filtering an initial segment of the
naturals, which keeps the function kernel-computable). -/
def order_domain_values (var : Var) (a : Snapshot) : List Val :=
  (List.range ((a var).sup id + 1)).filter (fun x => x ∈ a var)

/-- Model of `CSP.is_consistent_with_assignment` from the source: the whole check
is commented out and the active body is `return True`. -/
def is_consistent_with_assignment (csp : CSP) (var : Var) (val : Val)
    (a : Snapshot) : Bool :=
  true

/-- The `FunctionLog` dataclass of the source: calls and failures of the
decorated `backtrack`. -/
structure FunctionLog where
  calls : Nat
  failures : Nat
deriving DecidableEq

/-- Pointwise sum of two counter states. -/
def FunctionLog.add (l m : FunctionLog) : FunctionLog :=
  ⟨l.calls + m.calls, l.failures + m.failures⟩

/-- One iteration of the `for val in self.order_domain_values(...)` loop of
`CSP.backtrack`, in accumulator form.  The accumulator holds the early
`return` value (if any), the current state of the caller-owned
`assignment` dictionary, and the counter state; `rec` is the (decorated)
recursive `backtrack` call.  A candidate value is tried on
`assignment_new`, a deep copy of the caller's dictionary with `var`
collapsed to the single value; the copy is propagated, possibly recursed
on, and dropped — the caller's dictionary is never written. -/
def tryStep (csp : CSP) (var : Var)
    (rec : Snapshot → FunctionLog → Option Snapshot × Snapshot × FunctionLog)
    (acc : Option Snapshot × Snapshot × FunctionLog) (val : Val) :
    Option Snapshot × Snapshot × FunctionLog :=
  match acc.1 with
  | some _ => acc
  | none =>
    if is_consistent_with_assignment csp var val acc.2.1 then
      let b := Function.update acc.2.1 var ({val} : Finset Val)
      let inf := inference csp b (get_all_arcs csp)
      if inf.1 then
        let r := rec inf.2 acc.2.2
        match r.1 with
        | some s => (some s, acc.2.1, r.2.2)
        | none => (none, acc.2.1, r.2.2)
      else acc
    else acc

/-- Model of `CSP.backtrack(assignment)` from the source, decorated by
`log_function`, with fuel.  Returns the `return` value (`none` models the
falsy `{}`), the post-call state of the caller-owned `assignment`
dictionary, and the counter state.  The decorator increments `calls` on
entry and `failures` when the returned value is falsy.  The wrappers
supply fuel exceeding the recursion depth (each level collapses a domain
of size at least 2 to size 1 and propagation never grows a domain), so
the fuel-exhaustion branch is unreachable from them. -/
def backtrackFull (csp : CSP) : Nat → Snapshot → FunctionLog → Option Snapshot × Snapshot × FunctionLog
  | 0, a, log => (none, a, log)
  | fuel + 1, a, log =>
    let logc : FunctionLog := ⟨log.calls + 1, log.failures⟩
    let ret :=
      match select_unassigned_variable csp.vars a with
      | none => ((some a : Option Snapshot), a, logc)
      | some var =>
        (order_domain_values var a).foldl (tryStep csp var (backtrackFull csp fuel)) (none, a, logc)
    match ret.1 with
    | some s => (some s, ret.2.1, ret.2.2)
    | none => (none, ret.2.1, ⟨ret.2.2.calls, ret.2.2.failures + 1⟩)

/-- Fuel bound for `backtrack`: recursion depth is bounded by the total
size of the domains of the added variables. -/
def btFuel (csp : CSP) (a : Snapshot) : Nat :=
  (csp.vars.map (fun v => (a v).card)).sum + 1

/-- The value returned by the decorated `backtrack` (counters started
anywhere give the same value; the model fixes zero). -/
def backtrack (csp : CSP) (a : Snapshot) : Option Snapshot :=
  (backtrackFull csp (btFuel csp a) a ⟨0, 0⟩).1

/-- Model of `CSP.backtracking_search()` from the source, threaded with the global
counter state: assert that variables exist (`Except.error ()` models the
`AssertionError`), deep-copy the domains, run one global AC-3 pass with
the full arc set — discarding its success flag, exactly as the source
does — and hand the resulting snapshot to `backtrack`. -/
def backtracking_searchLog (csp : CSP) (log : FunctionLog) :
    Except Unit (Option Snapshot) × FunctionLog :=
  if csp.vars = [] then (Except.error (), log)
  else
    let a := csp.domains
    let inf := inference csp a (get_all_arcs csp)
    let r := backtrackFull csp (btFuel csp inf.2) inf.2 log
    (Except.ok r.1, r.2.2)

/-- Model of `CSP.backtracking_search()`: the returned value. -/
def backtracking_search (csp : CSP) : Except Unit (Option Snapshot) :=
  (backtracking_searchLog csp ⟨0, 0⟩).1

/-- Model of `solve_case` from the source, restricted to its effect on the
counters (parsing and printing are I/O): run the search with the ambient
counter state, print the counters (first component; `none` when the
search raised and the print is never reached), then reset them to zero.
The reset happens at the end of `solve_case`, after printing. -/
def solve_case (csp : CSP) (log : FunctionLog) : Option FunctionLog × FunctionLog :=
  match backtracking_searchLog csp log with
  | (Except.error _, log') => (none, log')
  | (Except.ok _, log') => (some log', ⟨0, 0⟩)

/-- A snapshot solves the graph: every added variable is decided (exactly
one candidate left) and the decided values of every registered constraint
pair lie in its table. -/
def isSolution (csp : CSP) (a : Snapshot) : Prop :=
  (∀ v ∈ csp.vars, (a v).card = 1) ∧
    ∀ e ∈ csp.constraints, ∀ p ∈ e.2, ∀ vi ∈ a e.1, ∀ vj ∈ a p.1, (vi, vj) ∈ p.2

instance (csp : CSP) (a : Snapshot) : Decidable (isSolution csp a) := by
  unfold isSolution; infer_instance

/-- The snapshot inside a `Solved` search result (junk on an assertion
error or an `Exhausted` result; used to state concrete evaluations
without writing function literals). -/
def searchSnap (csp : CSP) : Snapshot :=
  match backtracking_search csp with
  | Except.ok (some s) => s
  | _ => fun _ => ∅

/-- Two variables with domains `{0, 1}` and a symmetric not-equal
constraint: a solvable, well-formed graph. -/
def csp1 : CSP :=
  ⟨[0, 1], fun v => if v ≤ 1 then {0, 1} else ∅,
    [(0, [(1, [(0, 1), (1, 0)])]), (1, [(0, [(0, 1), (1, 0)])])]⟩

/-- Two variables with singleton domains `{1}` and empty (unsatisfiable)
symmetric constraint tables: the initial AC-3 pass fails on it. -/
def csp2 : CSP :=
  ⟨[0, 1], fun v => if v ≤ 1 then {1} else ∅,
    [(0, [(1, [])]), (1, [(0, [])])]⟩

/-- Three variables; `revise` on the arc `(0, 1)` removes value `1` and
variable `0` has the two neighbours `1` and `2`. -/
def csp3 : CSP :=
  ⟨[0, 1, 2],
    fun v => if v = 0 then {0, 1} else if v = 1 then {0} else if v = 2 then {0, 1} else ∅,
    [(0, [(1, [(0, 1), (1, 0)]), (2, [(0, 0), (0, 1), (1, 0), (1, 1)])]),
     (1, [(0, [(1, 0), (0, 1)])]),
     (2, [(0, [(0, 0), (1, 0), (0, 1), (1, 1)])])]⟩

/-- One variable with the singleton domain `{5}` and no constraints:
`backtrack` is called exactly once and succeeds. -/
def csp9 : CSP := ⟨[0], fun v => if v = 0 then {5} else ∅, []⟩

/-- A duplicate registration used to exercise `add_variable`. -/
def cspA : CSP := add_variable CSP.empty 0 [1]

/-- The search ended in a `Solved` result (decidable test). -/
def isSolved (csp : CSP) : Bool :=
  match backtracking_search csp with
  | Except.ok (some _) => true
  | _ => false

/-- The search result is a non-raising (`ok`) outcome. -/
def exceptOk (e : Except Unit (Option Snapshot)) : Bool :=
  match e with
  | Except.ok _ => true
  | Except.error _ => false

/-- Membership in the final unverified set: exactly the initial values no
table pair with a currently-possible partner ever removed. -/
theorem mem_reviseUnverified (table : List (Val × Val)) (dj : Finset Val) :
    ∀ (di : Finset Val) (v : Val),
      v ∈ reviseUnverified table di dj ↔
        v ∈ di ∧ ∀ p ∈ table, ¬(p.1 = v ∧ p.2 ∈ dj) := by
  induction table with
  | nil => intro di v; simp [reviseUnverified]
  | cons p rest ih =>
    intro di v
    have step :
        reviseUnverified (p :: rest) di dj =
          reviseUnverified rest (if p.1 ∈ di ∧ p.2 ∈ dj then di.erase p.1 else di) dj := by
      simp [reviseUnverified]
    rw [step, ih]
    by_cases hpin : p.1 ∈ di ∧ p.2 ∈ dj
    · simp only [if_pos hpin, Finset.mem_erase]
      constructor
      · rintro ⟨⟨hne, hv⟩, hrest⟩
        refine ⟨hv, ?_⟩
        intro q hq
        rcases List.mem_cons.mp hq with hq | hq
        · subst hq; rintro ⟨h1, _⟩; exact hne (h1 ▸ rfl)
        · exact hrest q hq
      · rintro ⟨hv, hall⟩
        refine ⟨⟨?_, hv⟩, fun q hq => hall q (List.mem_cons_of_mem _ hq)⟩
        intro hvp
        exact hall p (List.mem_cons_self _ _) ⟨hvp ▸ rfl, hpin.2⟩
    · simp only [if_neg hpin]
      constructor
      · rintro ⟨hv, hrest⟩
        refine ⟨hv, ?_⟩
        intro q hq
        rcases List.mem_cons.mp hq with hq | hq
        · subst hq
          rintro ⟨h1, h2⟩
          exact hpin ⟨h1 ▸ hv, h2⟩
        · exact hrest q hq
      · rintro ⟨hv, hall⟩
        exact ⟨hv, fun q hq => hall q (List.mem_cons_of_mem _ hq)⟩

/-- The final unverified set is a subset of the initial one. -/
theorem reviseUnverified_subset (table : List (Val × Val)) (di dj : Finset Val) :
    reviseUnverified table di dj ⊆ di := by
  intro v hv
  exact ((mem_reviseUnverified table dj di v).mp hv).1

/-- Evaluation of `revise` when nothing is unverified: no mutation, returns `False`. -/
theorem revise_of_empty {csp : CSP} {a : Snapshot} {i j : Var}
    (h : reviseUnverified (tableOfD csp i j) (a i) (a j) = ∅) :
    revise csp a i j = (false, a) := by
  simp [revise, h]

/-- Evaluation of `revise` when some value is unverified: removes it, returns `True`. -/
theorem revise_of_nonempty {csp : CSP} {a : Snapshot} {i j : Var}
    (h : reviseUnverified (tableOfD csp i j) (a i) (a j) ≠ ∅) :
    revise csp a i j =
      (true, Function.update a i (a i \ reviseUnverified (tableOfD csp i j) (a i) (a j))) := by
  simp [revise, h]

/-- Whatever `revise` returns, the domain of `i` afterwards is exactly the
set of previous values that still have a supporting partner in `a j`. -/
theorem revise_apply_i (csp : CSP) (a : Snapshot) (i j : Var) :
    (revise csp a i j).2 i =
      (a i).filter (fun vi => ∃ vj ∈ a j, (vi, vj) ∈ tableOfD csp i j) := by
  by_cases h : reviseUnverified (tableOfD csp i j) (a i) (a j) = ∅
  · rw [revise_of_empty h]
    ext v
    simp only [Finset.mem_filter]
    constructor
    · intro hv
      refine ⟨hv, ?_⟩
      by_contra hno
      push_neg at hno
      have : v ∈ reviseUnverified (tableOfD csp i j) (a i) (a j) := by
        rw [mem_reviseUnverified]
        refine ⟨hv, ?_⟩
        rintro p hp ⟨h1, h2⟩
        exact hno p.2 h2 (by simpa [← h1] using hp)
      simp [h] at this
    · exact fun hv => hv.1
  · rw [revise_of_nonempty h]
    ext v
    simp only [Function.update_same, Finset.mem_sdiff, Finset.mem_filter,
      mem_reviseUnverified]
    constructor
    · rintro ⟨hv, hnu⟩
      refine ⟨hv, ?_⟩
      by_contra hno
      push_neg at hno
      refine hnu ⟨hv, ?_⟩
      rintro p hp ⟨h1, h2⟩
      exact hno p.2 h2 (by simpa [← h1] using hp)
    · rintro ⟨hv, vj, hvj, hmem⟩
      refine ⟨hv, ?_⟩
      rintro ⟨-, hall⟩
      exact hall (v, vj) hmem ⟨rfl, hvj⟩

/-- A call `revise(assignment, i, j)` touches no variable other than `i`. -/
theorem revise_apply_ne (csp : CSP) (a : Snapshot) (i j v : Var) (hv : v ≠ i) :
    (revise csp a i j).2 v = a v := by
  by_cases h : reviseUnverified (tableOfD csp i j) (a i) (a j) = ∅
  · rw [revise_of_empty h]
  · rw [revise_of_nonempty h]
    exact Function.update_noteq hv _ _

/-- The function `revise` only ever removes values. -/
theorem revise_subset (csp : CSP) (a : Snapshot) (i j v : Var) :
    (revise csp a i j).2 v ⊆ a v := by
  by_cases hv : v = i
  · subst hv
    rw [revise_apply_i]
    exact Finset.filter_subset _ _
  · rw [revise_apply_ne csp a i j v hv]

/-- The boolean returned by `revise` says exactly whether `assignment[i]`
changed. -/
theorem revise_fst_iff (csp : CSP) (a : Snapshot) (i j : Var) :
    (revise csp a i j).1 = true ↔ (revise csp a i j).2 i ≠ a i := by
  by_cases h : reviseUnverified (tableOfD csp i j) (a i) (a j) = ∅
  · rw [revise_of_empty h]
    simp
  · rw [revise_of_nonempty h]
    simp only [Function.update_same, ne_eq, true_iff]
    intro habs
    rcases Finset.nonempty_iff_ne_empty.mpr h with ⟨x, hx⟩
    have hxa : x ∈ a i := reviseUnverified_subset _ _ _ hx
    have : x ∈ a i \ reviseUnverified (tableOfD csp i j) (a i) (a j) := by
      rw [habs]; exact hxa
    rw [Finset.mem_sdiff] at this
    exact this.2 hx

/-- A `revise` that reports `False` did not mutate the snapshot. -/
theorem revise_snd_of_false {csp : CSP} {a : Snapshot} {i j : Var}
    (h : (revise csp a i j).1 = false) : (revise csp a i j).2 = a := by
  by_cases he : reviseUnverified (tableOfD csp i j) (a i) (a j) = ∅
  · rw [revise_of_empty he]
  · rw [revise_of_nonempty he] at h
    simp at h

/-- Unfolding: an empty queue reports success immediately. -/
theorem inferenceLoop_nil (csp : CSP) (fuel : Nat) (a : Snapshot) :
    inferenceLoop csp fuel a [] = (true, a) := by
  cases fuel <;> rfl

/-- Unfolding: a step on which `revise` changed nothing just drops the arc. -/
theorem inferenceLoop_cons_false {csp : CSP} {a : Snapshot} {i j : Var}
    (fuel : Nat) (rest : List (Var × Var)) (h : (revise csp a i j).1 = false) :
    inferenceLoop csp (fuel + 1) a ((i, j) :: rest) = inferenceLoop csp fuel a rest := by
  have ha := revise_snd_of_false h
  simp [inferenceLoop, h, ha]

/-- Unfolding: a revision that wipes out `assignment[i]` fails at once. -/
theorem inferenceLoop_cons_empty {csp : CSP} {a : Snapshot} {i j : Var}
    (fuel : Nat) (rest : List (Var × Var)) (h : (revise csp a i j).1 = true)
    (he : (revise csp a i j).2 i = ∅) :
    inferenceLoop csp (fuel + 1) a ((i, j) :: rest) = (false, (revise csp a i j).2) := by
  simp [inferenceLoop, h, he]

/-- Unfolding: a productive revision continues with the neighbour arcs of
`i` (except `(j, i)`) appended to the queue. -/
theorem inferenceLoop_cons_cont {csp : CSP} {a : Snapshot} {i j : Var}
    (fuel : Nat) (rest : List (Var × Var)) (h : (revise csp a i j).1 = true)
    (he : (revise csp a i j).2 i ≠ ∅) :
    inferenceLoop csp (fuel + 1) a ((i, j) :: rest) =
      inferenceLoop csp fuel (revise csp a i j).2 (rest ++ newArcs csp i j) := by
  simp [inferenceLoop, h, he]

/-- Monotonic contraction of the AC-3 loop, any fuel, any queue: domains
only shrink. -/
theorem inferenceLoop_subset (csp : CSP) :
    ∀ (fuel : Nat) (a : Snapshot) (q : List (Var × Var)) (v : Var),
      (inferenceLoop csp fuel a q).2 v ⊆ a v := by
  intro fuel
  induction fuel with
  | zero =>
    intro a q v
    cases q <;> simp [inferenceLoop]
  | succ fuel ih =>
    intro a q v
    match q with
    | [] => simp [inferenceLoop_nil]
    | (i, j) :: rest =>
      by_cases h : (revise csp a i j).1 = true
      · by_cases he : (revise csp a i j).2 i = ∅
        · rw [inferenceLoop_cons_empty fuel rest h he]
          exact revise_subset csp a i j v
        · rw [inferenceLoop_cons_cont fuel rest h he]
          exact (ih _ _ v).trans (revise_subset csp a i j v)
      · rw [inferenceLoop_cons_false fuel rest (Bool.not_eq_true _ ▸ h)]
        exact ih _ _ v

theorem dictFind_mem {β : Type} :
    ∀ {l : List (Var × β)} {k : Var} {b : β}, dictFind l k = some b → (k, b) ∈ l := by
  intro l
  induction l with
  | nil => intro k b h; simp [dictFind] at h
  | cons p rest ih =>
    intro k b h
    by_cases hk : p.1 = k
    · simp only [dictFind, if_pos hk] at h
      cases h
      subst hk
      rw [Prod.mk.eta]
      exact List.mem_cons_self _ _
    · simp only [dictFind, if_neg hk] at h
      exact List.mem_cons_of_mem _ (ih h)

theorem dictFind_isSome_iff {β : Type} :
    ∀ {l : List (Var × β)} {k : Var},
      (dictFind l k).isSome = true ↔ k ∈ l.map Prod.fst := by
  intro l
  induction l with
  | nil => intro k; simp [dictFind]
  | cons p rest ih =>
    intro k
    by_cases hk : p.1 = k
    · simp [dictFind, hk]
    · simp [dictFind, hk, ih, Ne.symm hk]

theorem dictFind_eq_some_of_nodup {β : Type} :
    ∀ {l : List (Var × β)}, (l.map Prod.fst).Nodup →
      ∀ {k : Var} {b : β}, (k, b) ∈ l → dictFind l k = some b := by
  intro l
  induction l with
  | nil => intro _ k b h; simp at h
  | cons p rest ih =>
    intro hnd k b h
    simp only [List.map_cons, List.nodup_cons] at hnd
    rcases List.mem_cons.mp h with h | h
    · subst h
      simp [dictFind]
    · have hk : p.1 ≠ k := by
        intro hpk
        exact hnd.1 (hpk ▸ (List.mem_map_of_mem Prod.fst h))
      simp only [dictFind, if_neg hk]
      exact ih hnd.2 h

theorem tableOf_mem {csp : CSP} {i j : Var} {t : List (Val × Val)}
    (h : tableOf csp i j = some t) :
    ∃ es, (i, es) ∈ csp.constraints ∧ (j, t) ∈ es := by
  unfold tableOf at h
  cases hfind : dictFind csp.constraints i with
  | none => rw [hfind] at h; simp at h
  | some es =>
    rw [hfind] at h
    simp only [Option.some_bind] at h
    exact ⟨es, dictFind_mem hfind, dictFind_mem h⟩

/-- Every registered arc shows up in `get_all_arcs`. -/
theorem mem_get_all_arcs_of_registered {csp : CSP} {i j : Var}
    (h : Registered csp i j) : (i, j) ∈ get_all_arcs csp := by
  unfold Registered at h
  rw [Option.isSome_iff_exists] at h
  rcases h with ⟨t, ht⟩
  rcases tableOf_mem ht with ⟨es, hes, hjt⟩
  unfold get_all_arcs
  rw [List.mem_flatMap]
  exact ⟨(i, es), hes, List.mem_map.mpr ⟨(j, t), hjt, rfl⟩⟩

/-- In a well-formed (real-dict) constraint store, `get_all_arcs` only
contains registered arcs. -/
theorem registered_of_mem_get_all_arcs {csp : CSP} (hwf : csp.WF) {i j : Var}
    (h : (i, j) ∈ get_all_arcs csp) : Registered csp i j := by
  unfold get_all_arcs at h
  rw [List.mem_flatMap] at h
  rcases h with ⟨e, he, hmem⟩
  rw [List.mem_map] at hmem
  rcases hmem with ⟨p, hp, hpe⟩
  cases hpe
  unfold Registered tableOf
  rw [dictFind_eq_some_of_nodup hwf.1 he]
  simp only [Option.some_bind]
  have : (dictFind e.2 p.1).isSome = true :=
    dictFind_isSome_iff.mpr (List.mem_map_of_mem Prod.fst hp)
  exact this

/-- Variable `k` is a neighbour of `i` exactly when the table `(i, k)` is
registered. -/
theorem mem_neighbors_iff {csp : CSP} {i k : Var} :
    k ∈ neighbors csp i ↔ Registered csp i k := by
  unfold neighbors Registered tableOf
  cases hfind : dictFind csp.constraints i with
  | none => simp
  | some es =>
    simp only [Option.getD_some, Option.bind_some]
    exact (dictFind_isSome_iff (l := es) (k := k)).symm

/-- A symmetric store registers the reverse of every registered arc. -/
theorem Registered.symm {csp : CSP} (hsym : csp.Symmetric) {i j : Var}
    (h : Registered csp i j) : Registered csp j i := by
  unfold Registered at h
  rw [Option.isSome_iff_exists] at h
  rcases h with ⟨t, ht⟩
  rcases tableOf_mem ht with ⟨es, hes, hjt⟩
  exact (hsym (i, es) hes (j, t) hjt).1

/-- A symmetric store holds the mirrored pair in the reverse table. -/
theorem mem_tableOfD_symm {csp : CSP} (hsym : csp.Symmetric) {i j : Var}
    (hreg : Registered csp i j) {x y : Val} (hxy : (x, y) ∈ tableOfD csp i j) :
    (y, x) ∈ tableOfD csp j i := by
  unfold Registered at hreg
  rw [Option.isSome_iff_exists] at hreg
  rcases hreg with ⟨t, ht⟩
  rcases tableOf_mem ht with ⟨es, hes, hjt⟩
  have htD : tableOfD csp i j = t := by unfold tableOfD; rw [ht]; rfl
  rw [htD] at hxy
  exact (hsym (i, es) hes (j, t) hjt).2 (x, y) hxy

theorem le_foldr_max {α : Type} (f : α → Nat) :
    ∀ {l : List α} {e : α}, e ∈ l → f e ≤ l.foldr (fun x m => max (f x) m) 0 := by
  intro l
  induction l with
  | nil => intro e he; simp at he
  | cons p rest ih =>
    intro e he
    rcases List.mem_cons.mp he with h | h
    · subst h
      simp only [List.foldr_cons]
      exact le_max_left _ _
    · simp only [List.foldr_cons]
      exact (ih h).trans (le_max_right _ _)

theorem length_le_maxDeg {csp : CSP} {e : Var × List (Var × List (Val × Val))}
    (he : e ∈ csp.constraints) : e.2.length ≤ maxDeg csp :=
  le_foldr_max (fun e => e.2.length) he

theorem neighbors_length_le (csp : CSP) (i : Var) :
    (neighbors csp i).length ≤ maxDeg csp := by
  unfold neighbors
  cases hfind : dictFind csp.constraints i with
  | none => simp
  | some es =>
    simp only [Option.getD_some, List.length_map]
    have hmem := dictFind_mem hfind
    exact length_le_maxDeg (e := (i, es)) hmem

theorem newArcs_length_le (csp : CSP) (i j : Var) :
    (newArcs csp i j).length ≤ maxDeg csp := by
  unfold newArcs
  rw [List.length_map]
  exact (List.length_filter_le _ _).trans (neighbors_length_le csp i)

theorem mem_neighborKeys_of_neighbor {csp : CSP} {i k : Var}
    (h : k ∈ neighbors csp i) : k ∈ neighborKeys csp := by
  unfold neighbors at h
  cases hfind : dictFind csp.constraints i with
  | none => rw [hfind] at h; simp at h
  | some es =>
    rw [hfind] at h
    simp only [Option.getD_some] at h
    unfold neighborKeys
    rw [List.mem_toFinset, List.mem_flatMap]
    exact ⟨(i, es), dictFind_mem hfind, h⟩

/-- All members of a `newArcs` block have their first component among the
neighbour keys and their second equal to `i`, and they are all registered
when the store is symmetric. -/
theorem mem_newArcs {csp : CSP} {i j : Var} {p : Var × Var}
    (h : p ∈ newArcs csp i j) :
    p.1 ∈ neighbors csp i ∧ p.1 ≠ j ∧ p.2 = i := by
  unfold newArcs at h
  rw [List.mem_map] at h
  rcases h with ⟨k, hk, hp⟩
  rw [List.mem_filter] at hk
  cases hp
  exact ⟨hk.1, by simpa using hk.2, rfl⟩

theorem mem_newArcs_of {csp : CSP} {i j k : Var}
    (hk : k ∈ neighbors csp i) (hkj : k ≠ j) : (k, i) ∈ newArcs csp i j := by
  unfold newArcs
  rw [List.mem_map]
  exact ⟨k, List.mem_filter.mpr ⟨hk, by simpa using hkj⟩, rfl⟩

/-- Arc consistency of one arc only depends on the two endpoint domains;
shrinking the left endpoint preserves it. -/
theorem consistent_mono_left {csp : CSP} {a b : Snapshot} {x y : Var}
    (hsub : b x ⊆ a x) (heq : b y = a y) (h : Consistent csp a x y) :
    Consistent csp b x y := by
  intro vi hvi
  rw [heq]
  exact h vi (hsub hvi)

/-- A `revise` that reports `False` found every value supported. -/
theorem consistent_of_revise_false {csp : CSP} {a : Snapshot} {i j : Var}
    (h : (revise csp a i j).1 = false) : Consistent csp a i j := by
  intro vi hvi
  have hsnd := revise_snd_of_false h
  have := revise_apply_i csp a i j
  rw [hsnd] at this
  have hvi' : vi ∈ (a i).filter (fun vi => ∃ vj ∈ a j, (vi, vj) ∈ tableOfD csp i j) := by
    rw [← this]; exact hvi
  exact (Finset.mem_filter.mp hvi').2

/-- A `Consistent` arc revises to `False` without mutation. -/
theorem revise_eq_of_consistent {csp : CSP} {a : Snapshot} {i j : Var}
    (h : Consistent csp a i j) : revise csp a i j = (false, a) := by
  apply revise_of_empty
  rw [Finset.eq_empty_iff_forall_not_mem]
  intro v hv
  rw [mem_reviseUnverified] at hv
  rcases h v hv.1 with ⟨vj, hvj, hmem⟩
  exact hv.2 (v, vj) hmem ⟨rfl, hvj⟩

/-- After `revise(assignment, i, j)` on a registered arc of a symmetric
store, the arc `(i, j)` is consistent (for a self-loop `i = j`, symmetry of
the table guarantees supports survive). -/
theorem revise_consistent {csp : CSP} (hsym : csp.Symmetric) {a : Snapshot}
    {i j : Var} (hreg : Registered csp i j) :
    Consistent csp (revise csp a i j).2 i j := by
  intro vi hvi
  rw [revise_apply_i] at hvi
  rcases Finset.mem_filter.mp hvi with ⟨hvia, vj, hvj, hmem⟩
  by_cases hji : j = i
  · subst hji
    refine ⟨vj, ?_, hmem⟩
    rw [revise_apply_i, Finset.mem_filter]
    exact ⟨hvj, vi, hvia, mem_tableOfD_symm hsym hreg hmem⟩
  · refine ⟨vj, ?_, hmem⟩
    rw [revise_apply_ne csp a i j j hji]
    exact hvj

/-- After `revise(assignment, i, j)` with `j ≠ i`, the reverse arc
`(j, i)` stays consistent even though it is not re-enqueued: a support
removed from `domain(i)` supported nothing in `domain(j)` (by symmetry of
the tables). -/
theorem consistent_rev_preserved {csp : CSP} (hsym : csp.Symmetric)
    {a : Snapshot} {i j : Var} (hreg : Registered csp j i) (hji : j ≠ i)
    (hcons : Consistent csp a j i) : Consistent csp (revise csp a i j).2 j i := by
  intro vj hvj
  rw [revise_apply_ne csp a i j j hji] at hvj
  rcases hcons vj hvj with ⟨vi, hvi, hmem⟩
  refine ⟨vi, ?_, hmem⟩
  rw [revise_apply_i, Finset.mem_filter]
  exact ⟨hvi, vj, hvj, mem_tableOfD_symm hsym hreg hmem⟩

/-- Main AC-3 loop invariant: with enough fuel, on a symmetric store, if
every registered arc is either queued or consistent, a successful run ends
arc-consistent. -/
theorem inferenceLoop_sound (csp : CSP) (hsym : csp.Symmetric) (V : Finset Var)
    (hV : ∀ k ∈ neighborKeys csp, k ∈ V) :
    ∀ (fuel : Nat) (a : Snapshot) (q : List (Var × Var)),
      (∀ p ∈ q, p.1 ∈ V) →
      (∀ p ∈ q, Registered csp p.1 p.2) →
      (∀ x y, Registered csp x y → (x, y) ∈ q ∨ Consistent csp a x y) →
      (maxDeg csp + 1) * domTotal V a + q.length + 1 ≤ fuel →
      (inferenceLoop csp fuel a q).1 = true →
      ∀ x y, Registered csp x y → Consistent csp (inferenceLoop csp fuel a q).2 x y := by
  intro fuel
  induction fuel with
  | zero => intro a q _ _ _ hfuel; omega
  | succ fuel ih =>
    intro a q h1 h2 h3 hfuel hres x y hreg
    match q with
    | [] =>
      rw [inferenceLoop_nil]
      rcases h3 x y hreg with h | h
      · simp at h
      · exact h
    | (i, j) :: rest =>
      have hreg_ij : Registered csp i j := h2 (i, j) (List.mem_cons_self _ _)
      by_cases hr : (revise csp a i j).1 = true
      · by_cases he : (revise csp a i j).2 i = ∅
        · rw [inferenceLoop_cons_empty fuel rest hr he] at hres
          simp at hres
        · rw [inferenceLoop_cons_cont fuel rest hr he] at hres ⊢
          set F := (revise csp a i j).2 with hF
          refine ih F (rest ++ newArcs csp i j) ?_ ?_ ?_ ?_ hres x y hreg
          · intro p hp
            rcases List.mem_append.mp hp with hp | hp
            · exact h1 p (List.mem_cons_of_mem _ hp)
            · exact hV p.1 (mem_neighborKeys_of_neighbor (mem_newArcs hp).1)
          · intro p hp
            rcases List.mem_append.mp hp with hp | hp
            · exact h2 p (List.mem_cons_of_mem _ hp)
            · rcases mem_newArcs hp with ⟨hnb, _, hp2⟩
              have : Registered csp i p.1 := mem_neighbors_iff.mp hnb
              rw [hp2]
              exact this.symm hsym
          · intro x' y' hreg'
            rcases h3 x' y' hreg' with hmem | hcons
            · rcases List.mem_cons.mp hmem with hmem | hmem
              · right
                have hx' : x' = i := congrArg Prod.fst hmem
                have hy' : y' = j := congrArg Prod.snd hmem
                rw [hx', hy']
                exact revise_consistent hsym hreg_ij
              · left
                exact List.mem_append_left _ hmem
            · by_cases hy' : y' = i
              · by_cases hx' : x' = j
                · right
                  rw [hx', hy'] at hreg' hcons ⊢
                  by_cases hji : j = i
                  · have hcons' : Consistent csp (revise csp a i j).2 i j :=
                      revise_consistent hsym hreg_ij
                    rw [hji] at hcons'
                    rw [hF, hji]
                    exact hcons'
                  · exact consistent_rev_preserved hsym hreg' hji hcons
                · left
                  rw [hy'] at hreg' ⊢
                  exact List.mem_append_right _
                    (mem_newArcs_of (mem_neighbors_iff.mpr (hreg'.symm hsym)) hx')
              · right
                exact consistent_mono_left (revise_subset csp a i j x')
                  (revise_apply_ne csp a i j y' hy') hcons
          · have hiV : i ∈ V := h1 (i, j) (List.mem_cons_self _ _)
            have hcard : (F i).card < (a i).card := by
              apply Finset.card_lt_card
              refine HasSubset.Subset.ssubset_of_ne (revise_subset csp a i j i) ?_
              exact (revise_fst_iff csp a i j).mp hr
            have hsum : domTotal V F + 1 ≤ domTotal V a := by
              unfold domTotal
              have : Finset.sum V (fun v => (F v).card) < Finset.sum V (fun v => (a v).card) := by
                apply Finset.sum_lt_sum
                · intro v _
                  exact Finset.card_le_card (revise_subset csp a i j v)
                · exact ⟨i, hiV, hcard⟩
              omega
            have hmul : (maxDeg csp + 1) * (domTotal V F + 1) ≤
                (maxDeg csp + 1) * domTotal V a := Nat.mul_le_mul_left _ hsum
            have hna : (newArcs csp i j).length ≤ maxDeg csp := newArcs_length_le csp i j
            have hlen : (rest ++ newArcs csp i j).length =
                rest.length + (newArcs csp i j).length := List.length_append _ _
            have hqlen : ((i, j) :: rest).length = rest.length + 1 := List.length_cons _ _
            rw [hqlen] at hfuel
            rw [hlen]
            rw [Nat.mul_add, Nat.mul_one] at hmul
            omega
      · rw [Bool.not_eq_true] at hr
        rw [inferenceLoop_cons_false fuel rest hr] at hres ⊢
        refine ih a rest ?_ ?_ ?_ ?_ hres x y hreg
        · exact fun p hp => h1 p (List.mem_cons_of_mem _ hp)
        · exact fun p hp => h2 p (List.mem_cons_of_mem _ hp)
        · intro x' y' hreg'
          rcases h3 x' y' hreg' with hmem | hcons
          · rcases List.mem_cons.mp hmem with hmem | hmem
            · right
              have hx' : x' = i := congrArg Prod.fst hmem
              have hy' : y' = j := congrArg Prod.snd hmem
              rw [hx', hy']
              exact consistent_of_revise_false hr
            · left; exact hmem
          · right; exact hcons
        · have hqlen : ((i, j) :: rest).length = rest.length + 1 := List.length_cons _ _
          omega

/-- If the snapshot is already arc-consistent, any queue of registered
arcs drains with no mutation and reports success. -/
theorem inferenceLoop_fix (csp : CSP) :
    ∀ (fuel : Nat) (a : Snapshot) (q : List (Var × Var)),
      (∀ p ∈ q, Registered csp p.1 p.2) →
      ArcConsistent csp a →
      inferenceLoop csp fuel a q = (true, a) := by
  intro fuel
  induction fuel with
  | zero => intro a q _ _; cases q <;> rfl
  | succ fuel ih =>
    intro a q h2 hac
    match q with
    | [] => exact inferenceLoop_nil csp _ a
    | (i, j) :: rest =>
      have hcons : Consistent csp a i j := hac i j (h2 (i, j) (List.mem_cons_self _ _))
      have hfalse : (revise csp a i j).1 = false := by
        rw [revise_eq_of_consistent hcons]
      rw [inferenceLoop_cons_false fuel rest hfalse]
      exact ih a rest (fun p hp => h2 p (List.mem_cons_of_mem _ hp)) hac

/-- A successful AC-3 run never leaves a previously non-empty domain
empty (the loop fails as soon as a revision wipes one out). -/
theorem inferenceLoop_nonempty (csp : CSP) :
    ∀ (fuel : Nat) (a : Snapshot) (q : List (Var × Var)),
      (inferenceLoop csp fuel a q).1 = true →
      ∀ v, a v ≠ ∅ → (inferenceLoop csp fuel a q).2 v ≠ ∅ := by
  intro fuel
  induction fuel with
  | zero => intro a q _ v hv; cases q <;> simpa [inferenceLoop]
  | succ fuel ih =>
    intro a q hres v hv
    match q with
    | [] => rw [inferenceLoop_nil]; exact hv
    | (i, j) :: rest =>
      by_cases hr : (revise csp a i j).1 = true
      · by_cases he : (revise csp a i j).2 i = ∅
        · rw [inferenceLoop_cons_empty fuel rest hr he] at hres
          simp at hres
        · rw [inferenceLoop_cons_cont fuel rest hr he] at hres ⊢
          refine ih _ _ hres v ?_
          by_cases hvi : v = i
          · subst hvi; exact he
          · rw [revise_apply_ne csp a i j v hvi]; exact hv
      · rw [Bool.not_eq_true] at hr
        rw [inferenceLoop_cons_false fuel rest hr] at hres ⊢
        exact ih _ _ hres v hv

/-- Soundness of the `inference` wrapper seeded with the full arc set:
success implies arc consistency of the resulting snapshot. -/
theorem inference_sound {csp : CSP} (hwf : csp.WF) (hsym : csp.Symmetric)
    (a : Snapshot) (h : (inference csp a (get_all_arcs csp)).1 = true) :
    ArcConsistent csp (inference csp a (get_all_arcs csp)).2 := by
  intro x y hreg
  unfold inference at h ⊢
  refine inferenceLoop_sound csp hsym
    (((get_all_arcs csp).map Prod.fst).toFinset ∪ neighborKeys csp)
    (fun k hk => Finset.mem_union_right _ hk) _ a (get_all_arcs csp)
    ?_ ?_ ?_ ?_ h x y hreg
  · intro p hp
    exact Finset.mem_union_left _ (List.mem_toFinset.mpr (List.mem_map_of_mem Prod.fst hp))
  · intro p hp
    exact registered_of_mem_get_all_arcs hwf hp
  · intro x' y' hreg'
    exact Or.inl (mem_get_all_arcs_of_registered hreg')
  · exact le_of_eq rfl

/-- The scan returns nothing exactly when it started with nothing and saw
no pending variable. -/
theorem selectLoop_eq_none_iff (a : Snapshot) :
    ∀ (l : List Var) (acc : Option (Nat × Var)),
      selectLoop a l acc = none ↔ acc = none ∧ ∀ v ∈ l, ¬1 < (a v).card := by
  intro l
  induction l with
  | nil => intro acc; simp [selectLoop]
  | cons v rest ih =>
    intro acc
    match acc with
    | none =>
      by_cases hc : 1 < (a v).card
      · simp only [selectLoop, if_pos hc, ih]
        constructor
        · rintro ⟨h, -⟩; cases h
        · rintro ⟨-, hall⟩
          exact absurd hc (hall v (List.mem_cons_self _ _))
      · simp only [selectLoop, if_neg hc, ih]
        constructor
        · rintro ⟨-, hall⟩
          refine ⟨trivial, fun u hu => ?_⟩
          rcases List.mem_cons.mp hu with hu | hu
          · rw [hu]; exact hc
          · exact hall u hu
        · rintro ⟨-, hall⟩
          exact ⟨trivial, fun u hu => hall u (List.mem_cons_of_mem _ hu)⟩
    | some (s, w) =>
      by_cases hc : 1 < (a v).card ∧ (a v).card < s
      · simp only [selectLoop, if_pos hc, ih]
        constructor
        · rintro ⟨h, -⟩; cases h
        · rintro ⟨h, -⟩; cases h
      · simp only [selectLoop, if_neg hc, ih]
        constructor
        · rintro ⟨h, -⟩; cases h
        · rintro ⟨h, -⟩; cases h

/-- Characterisation of a scan started with a candidate: either the
candidate survives or a later, strictly better variable wins, in which
case it is the first optimum of the remaining list. -/
theorem selectLoop_some_start (a : Snapshot) :
    ∀ (l : List Var) (s : Nat) (w : Var) (s' : Nat) (w' : Var),
      selectLoop a l (some (s, w)) = some (s', w') →
      (s' = s ∧ w' = w) ∨
        (∃ l₁ l₂, l = l₁ ++ w' :: l₂ ∧ s' = (a w').card ∧ 1 < s' ∧ s' < s ∧
          ∀ u ∈ l₁, 1 < (a u).card → s' < (a u).card) := by
  intro l
  induction l with
  | nil =>
    intro s w s' w' h
    simp only [selectLoop] at h
    cases h
    exact Or.inl ⟨rfl, rfl⟩
  | cons v rest ih =>
    intro s w s' w' h
    by_cases hc : 1 < (a v).card ∧ (a v).card < s
    · simp only [selectLoop, if_pos hc] at h
      rcases ih _ _ _ _ h with ⟨hs, hw⟩ | ⟨l₁, l₂, heq, hsc, h1, hlt, hpos⟩
      · refine Or.inr ⟨[], rest, ?_, ?_, ?_, ?_, ?_⟩
        · rw [hw]; rfl
        · rw [hs, hw]
        · rw [hs]; exact hc.1
        · rw [hs]; exact hc.2
        · intro u hu; simp at hu
      · refine Or.inr ⟨v :: l₁, l₂, ?_, hsc, h1, lt_trans hlt hc.2, ?_⟩
        · rw [heq]; rfl
        · intro u hu
          rcases List.mem_cons.mp hu with hu | hu
          · rw [hu]; intro _; exact hlt
          · exact hpos u hu
    · simp only [selectLoop, if_neg hc] at h
      rcases ih _ _ _ _ h with ⟨hs, hw⟩ | ⟨l₁, l₂, heq, hsc, h1, hlt, hpos⟩
      · exact Or.inl ⟨hs, hw⟩
      · refine Or.inr ⟨v :: l₁, l₂, ?_, hsc, h1, hlt, ?_⟩
        · rw [heq]; rfl
        · intro u hu
          rcases List.mem_cons.mp hu with hu | hu
          · rw [hu]
            intro hv1
            have hvs : s ≤ (a v).card := by
              by_contra hvs
              exact hc ⟨hv1, lt_of_not_le hvs⟩
            exact lt_of_lt_of_le hlt hvs
          · exact hpos u hu

/-- Characterisation of a full scan: the winner is a pending variable and
it is the first one of minimal (pending) domain size in key order. -/
theorem selectLoop_some_none (a : Snapshot) :
    ∀ (l : List Var) (s' : Nat) (w' : Var),
      selectLoop a l none = some (s', w') →
      ∃ l₁ l₂, l = l₁ ++ w' :: l₂ ∧ s' = (a w').card ∧ 1 < s' ∧
        ∀ u ∈ l₁, 1 < (a u).card → s' < (a u).card := by
  intro l
  induction l with
  | nil => intro s' w' h; simp [selectLoop] at h
  | cons v rest ih =>
    intro s' w' h
    by_cases hc : 1 < (a v).card
    · simp only [selectLoop, if_pos hc] at h
      rcases selectLoop_some_start a rest _ _ _ _ h with ⟨hs, hw⟩ | ⟨l₁, l₂, heq, hsc, h1, hlt, hpos⟩
      · refine ⟨[], rest, ?_, ?_, ?_, ?_⟩
        · rw [hw]; rfl
        · rw [hs, hw]
        · rw [hs]; exact hc
        · intro u hu; simp at hu
      · refine ⟨v :: l₁, l₂, ?_, hsc, h1, ?_⟩
        · rw [heq]; rfl
        · intro u hu
          rcases List.mem_cons.mp hu with hu | hu
          · rw [hu]; intro _; exact hlt
          · exact hpos u hu
    · simp only [selectLoop, if_neg hc] at h
      rcases ih _ _ h with ⟨l₁, l₂, heq, hsc, h1, hpos⟩
      refine ⟨v :: l₁, l₂, ?_, hsc, h1, ?_⟩
      · rw [heq]; rfl
      · intro u hu
        rcases List.mem_cons.mp hu with hu | hu
        · rw [hu]; intro hv1; exact absurd hv1 hc
        · exact hpos u hu

/-- A scan started with a candidate never returns a worse score, and the
returned score is at most the size of every pending variable scanned. -/
theorem selectLoop_min_start (a : Snapshot) :
    ∀ (l : List Var) (s : Nat) (w : Var) (s' : Nat) (w' : Var),
      selectLoop a l (some (s, w)) = some (s', w') →
      s' ≤ s ∧ ∀ u ∈ l, 1 < (a u).card → s' ≤ (a u).card := by
  intro l
  induction l with
  | nil =>
    intro s w s' w' h
    simp only [selectLoop] at h
    cases h
    exact ⟨le_refl _, fun u hu => by simp at hu⟩
  | cons v rest ih =>
    intro s w s' w' h
    by_cases hc : 1 < (a v).card ∧ (a v).card < s
    · simp only [selectLoop, if_pos hc] at h
      rcases ih _ _ _ _ h with ⟨hle, hall⟩
      refine ⟨le_of_lt (lt_of_le_of_lt hle hc.2), fun u hu => ?_⟩
      rcases List.mem_cons.mp hu with hu | hu
      · rw [hu]; intro _; exact hle
      · exact hall u hu
    · simp only [selectLoop, if_neg hc] at h
      rcases ih _ _ _ _ h with ⟨hle, hall⟩
      refine ⟨hle, fun u hu => ?_⟩
      rcases List.mem_cons.mp hu with hu | hu
      · rw [hu]
        intro hv1
        have hvs : s ≤ (a v).card := by
          by_contra hvs
          exact hc ⟨hv1, lt_of_not_le hvs⟩
        exact le_trans hle hvs
      · exact hall u hu

/-- A full scan returns a minimal pending score. -/
theorem selectLoop_min_none (a : Snapshot) :
    ∀ (l : List Var) (s' : Nat) (w' : Var),
      selectLoop a l none = some (s', w') →
      ∀ u ∈ l, 1 < (a u).card → s' ≤ (a u).card := by
  intro l
  induction l with
  | nil => intro s' w' h; simp [selectLoop] at h
  | cons v rest ih =>
    intro s' w' h u hu
    by_cases hc : 1 < (a v).card
    · simp only [selectLoop, if_pos hc] at h
      rcases selectLoop_min_start a rest _ _ _ _ h with ⟨hle, hall⟩
      rcases List.mem_cons.mp hu with hu | hu
      · rw [hu]; intro _; exact hle
      · exact hall u hu
    · simp only [selectLoop, if_neg hc] at h
      rcases List.mem_cons.mp hu with hu | hu
      · rw [hu]; intro hv1; exact absurd hv1 hc
      · exact ih _ _ h u hu

/-- The selected variable is pending, of minimal pending domain size, and
first among the equally-small in key order. -/
theorem select_some_spec {keys : List Var} {a : Snapshot} {v : Var}
    (h : select_unassigned_variable keys a = some v) :
    v ∈ keys ∧ 1 < (a v).card ∧
      (∀ w ∈ keys, 1 < (a w).card → (a v).card ≤ (a w).card) ∧
      ∃ l₁ l₂, keys = l₁ ++ v :: l₂ ∧
        ∀ w ∈ l₁, 1 < (a w).card → (a v).card < (a w).card := by
  unfold select_unassigned_variable at h
  cases hsel : selectLoop a keys none with
  | none => rw [hsel] at h; exact Option.noConfusion h
  | some p =>
    rw [hsel] at h
    simp only [Option.map_some'] at h
    cases h
    rcases selectLoop_some_none a keys p.1 p.2 (by rw [hsel]) with
      ⟨l₁, l₂, heq, hsc, h1, hpos⟩
    have hmin := selectLoop_min_none a keys p.1 p.2 (by rw [hsel])
    refine ⟨?_, ?_, ?_, l₁, l₂, heq, ?_⟩
    · rw [heq]
      exact List.mem_append_right _ (List.mem_cons_self _ _)
    · rw [← hsc]; exact h1
    · intro w hw hw1
      rw [← hsc]
      exact hmin w hw hw1
    · intro w hw hw1
      rw [← hsc]
      exact hpos w hw hw1

/-- No selection happens exactly when no variable is pending. -/
theorem select_none_iff {keys : List Var} {a : Snapshot} :
    select_unassigned_variable keys a = none ↔ ∀ v ∈ keys, (a v).card ≤ 1 := by
  unfold select_unassigned_variable
  rw [Option.map_eq_none', selectLoop_eq_none_iff]
  constructor
  · rintro ⟨-, hall⟩
    intro v hv
    exact le_of_not_lt (hall v hv)
  · intro hall
    exact ⟨rfl, fun v hv => not_lt_of_le (hall v hv)⟩

theorem FunctionLog.add_zero (l : FunctionLog) : l.add ⟨0, 0⟩ = l := by
  cases l; simp [FunctionLog.add]

theorem FunctionLog.add_assoc (l m n : FunctionLog) :
    (l.add m).add n = l.add (m.add n) := by
  cases l; cases m; cases n; simp [FunctionLog.add, Nat.add_assoc]

/-- One loop iteration never writes the caller-owned dictionary. -/
theorem tryStep_post (csp : CSP) (var : Var)
    (rec : Snapshot → FunctionLog → Option Snapshot × Snapshot × FunctionLog)
    (acc : Option Snapshot × Snapshot × FunctionLog) (val : Val) :
    (tryStep csp var rec acc val).2.1 = acc.2.1 := by
  unfold tryStep
  match hacc : acc.1 with
  | some s => rfl
  | none =>
    simp only [is_consistent_with_assignment, if_true]
    by_cases hinf : (inference csp (Function.update acc.2.1 var {val}) (get_all_arcs csp)).1
    · simp only [hinf, if_true]
      match (rec (inference csp (Function.update acc.2.1 var {val}) (get_all_arcs csp)).2 acc.2.2).1 with
      | some s => rfl
      | none => rfl
    · simp [hinf]

/-- The whole value loop never writes the caller-owned dictionary. -/
theorem foldl_tryStep_post (csp : CSP) (var : Var)
    (rec : Snapshot → FunctionLog → Option Snapshot × Snapshot × FunctionLog) :
    ∀ (vals : List Val) (acc : Option Snapshot × Snapshot × FunctionLog),
      (vals.foldl (tryStep csp var rec) acc).2.1 = acc.2.1 := by
  intro vals
  induction vals with
  | nil => intro acc; rfl
  | cons val rest ih =>
    intro acc
    rw [List.foldl_cons, ih, tryStep_post]

/-- Frame property of `backtrack`: whatever happens inside the call, the
caller's `assignment` dictionary is unchanged when it returns. -/
theorem backtrackFull_post (csp : CSP) :
    ∀ (fuel : Nat) (a : Snapshot) (log : FunctionLog),
      (backtrackFull csp fuel a log).2.1 = a := by
  intro fuel
  match fuel with
  | 0 => intro a log; rfl
  | fuel + 1 =>
    intro a log
    show (backtrackFull csp (fuel + 1) a log).2.1 = a
    unfold backtrackFull
    match select_unassigned_variable csp.vars a with
    | none => rfl
    | some var =>
      simp only
      set ret := (order_domain_values var a).foldl
        (tryStep csp var (backtrackFull csp fuel)) (none, a, ⟨log.calls + 1, log.failures⟩)
        with hret
      have hpost : ret.2.1 = a := foldl_tryStep_post csp var (backtrackFull csp fuel) _ _
      match hr1 : ret.1 with
      | some s => exact hpost
      | none => exact hpost

/-- Once an iteration has produced a `return` value, the remaining
iterations do nothing. -/
theorem foldl_tryStep_frozen (csp : CSP) (var : Var)
    (rec : Snapshot → FunctionLog → Option Snapshot × Snapshot × FunctionLog) :
    ∀ (vals : List Val) (acc : Option Snapshot × Snapshot × FunctionLog) (x : Snapshot),
      acc.1 = some x → vals.foldl (tryStep csp var rec) acc = acc := by
  intro vals
  induction vals with
  | nil => intro acc x _; rfl
  | cons val rest ih =>
    intro acc x hacc
    rw [List.foldl_cons]
    have hstep : tryStep csp var rec acc val = acc := by
      unfold tryStep
      rw [hacc]
    rw [hstep]
    exact ih acc x hacc

/-- Parallel single iteration from two counter states differing by a fixed
offset `d`: `return` value and caller dictionary agree, the counters keep
the offset. -/
theorem tryStep_log (csp : CSP) (var : Var) (d : FunctionLog)
    (rec : Snapshot → FunctionLog → Option Snapshot × Snapshot × FunctionLog)
    (hrec : ∀ (b : Snapshot) (L : FunctionLog),
      (rec b L).1 = (rec b ⟨0, 0⟩).1 ∧ (rec b L).2.2 = L.add (rec b ⟨0, 0⟩).2.2)
    (val : Val) (acc acc' : Option Snapshot × Snapshot × FunctionLog)
    (h1 : acc.1 = acc'.1) (h2 : acc.2.1 = acc'.2.1) (h3 : acc.2.2 = d.add acc'.2.2) :
    (tryStep csp var rec acc val).1 = (tryStep csp var rec acc' val).1 ∧
    (tryStep csp var rec acc val).2.1 = (tryStep csp var rec acc' val).2.1 ∧
    (tryStep csp var rec acc val).2.2 = d.add (tryStep csp var rec acc' val).2.2 := by
  unfold tryStep
  rw [← h1, ← h2]
  match hacc : acc.1 with
  | some s => exact ⟨h1, h2, h3⟩
  | none =>
    simp only [is_consistent_with_assignment, if_true]
    by_cases hinf : (inference csp (Function.update acc.2.1 var {val}) (get_all_arcs csp)).1 = true
    · simp only [hinf, if_true]
      have hr := hrec (inference csp (Function.update acc.2.1 var {val}) (get_all_arcs csp)).2 acc.2.2
      have hr' := hrec (inference csp (Function.update acc.2.1 var {val}) (get_all_arcs csp)).2 acc'.2.2
      have hlog : (rec (inference csp (Function.update acc.2.1 var {val}) (get_all_arcs csp)).2 acc.2.2).2.2 =
          d.add (rec (inference csp (Function.update acc.2.1 var {val}) (get_all_arcs csp)).2 acc'.2.2).2.2 := by
        rw [hr.2, hr'.2, h3, FunctionLog.add_assoc]
      have hfst : (rec (inference csp (Function.update acc.2.1 var {val}) (get_all_arcs csp)).2 acc'.2.2).1 =
          (rec (inference csp (Function.update acc.2.1 var {val}) (get_all_arcs csp)).2 acc.2.2).1 := by
        rw [hr'.1, hr.1]
      rw [hfst]
      match (rec (inference csp (Function.update acc.2.1 var {val}) (get_all_arcs csp)).2 acc.2.2).1 with
      | some s => exact ⟨rfl, rfl, hlog⟩
      | none => exact ⟨rfl, rfl, hlog⟩
    · simp only [hinf, if_false]
      exact ⟨h1, h2, h3⟩

/-- Parallel run of the whole value loop from two counter states differing
by a fixed offset `d`. -/
theorem foldl_tryStep_log (csp : CSP) (var : Var) (d : FunctionLog)
    (rec : Snapshot → FunctionLog → Option Snapshot × Snapshot × FunctionLog)
    (hrec : ∀ (b : Snapshot) (L : FunctionLog),
      (rec b L).1 = (rec b ⟨0, 0⟩).1 ∧ (rec b L).2.2 = L.add (rec b ⟨0, 0⟩).2.2) :
    ∀ (vals : List Val) (acc acc' : Option Snapshot × Snapshot × FunctionLog),
      acc.1 = acc'.1 → acc.2.1 = acc'.2.1 → acc.2.2 = d.add acc'.2.2 →
      (vals.foldl (tryStep csp var rec) acc).1 = (vals.foldl (tryStep csp var rec) acc').1 ∧
      (vals.foldl (tryStep csp var rec) acc).2.1 = (vals.foldl (tryStep csp var rec) acc').2.1 ∧
      (vals.foldl (tryStep csp var rec) acc).2.2 =
        d.add (vals.foldl (tryStep csp var rec) acc').2.2 := by
  intro vals
  induction vals with
  | nil =>
    intro acc acc' h1 h2 h3
    exact ⟨h1, h2, h3⟩
  | cons val rest ih =>
    intro acc acc' h1 h2 h3
    rw [List.foldl_cons, List.foldl_cons]
    rcases tryStep_log csp var d rec hrec val acc acc' h1 h2 h3 with ⟨g1, g2, g3⟩
    exact ih _ _ g1 g2 g3

/-- Counter additivity of the decorated `backtrack`: the returned value
and the final caller dictionary do not depend on the ambient counter
state, and the counters only ever grow by the contribution of the call
itself. -/
theorem backtrackFull_log (csp : CSP) :
    ∀ (fuel : Nat) (a : Snapshot) (log : FunctionLog),
      (backtrackFull csp fuel a log).1 = (backtrackFull csp fuel a ⟨0, 0⟩).1 ∧
      (backtrackFull csp fuel a log).2.2 =
        log.add (backtrackFull csp fuel a ⟨0, 0⟩).2.2 := by
  intro fuel
  induction fuel with
  | zero =>
    intro a log
    exact ⟨rfl, by cases log; simp [backtrackFull, FunctionLog.add]⟩
  | succ fuel ih =>
    intro a log
    show (backtrackFull csp (fuel + 1) a log).1 = _ ∧ _
    unfold backtrackFull
    match select_unassigned_variable csp.vars a with
    | none =>
      refine ⟨rfl, ?_⟩
      cases log
      simp [FunctionLog.add]
    | some var =>
      simp only
      have hpar := foldl_tryStep_log csp var log (backtrackFull csp fuel) ih
        (order_domain_values var a)
        (none, a, ⟨log.calls + 1, log.failures⟩) (none, a, ⟨0 + 1, 0⟩)
        rfl rfl (by cases log; simp [FunctionLog.add])
      rcases hpar with ⟨g1, g2, g3⟩
      rw [g1]
      match (List.foldl (tryStep csp var (backtrackFull csp fuel)) (none, a, ⟨0 + 1, 0⟩)
          (order_domain_values var a)).1 with
      | some s =>
        exact ⟨rfl, g3⟩
      | none =>
        refine ⟨rfl, ?_⟩
        rw [g3]
        cases (List.foldl (tryStep csp var (backtrackFull csp fuel)) (none, a, ⟨0 + 1, 0⟩)
          (order_domain_values var a)).2.2
        cases log
        simp [FunctionLog.add]
        omega

theorem tryStep_eq_of_inf_some {csp : CSP} {var : Var}
    {rec : Snapshot → FunctionLog → Option Snapshot × Snapshot × FunctionLog}
    {acc : Option Snapshot × Snapshot × FunctionLog} {val : Val} {s : Snapshot}
    (hacc : acc.1 = none)
    (hinf : (inference csp (Function.update acc.2.1 var {val}) (get_all_arcs csp)).1 = true)
    (hres : (rec (inference csp (Function.update acc.2.1 var {val}) (get_all_arcs csp)).2 acc.2.2).1 = some s) :
    tryStep csp var rec acc val =
      (some s, acc.2.1,
        (rec (inference csp (Function.update acc.2.1 var {val}) (get_all_arcs csp)).2 acc.2.2).2.2) := by
  unfold tryStep
  rw [hacc]
  simp only [is_consistent_with_assignment, if_true, hinf]
  rw [hres]

theorem tryStep_eq_of_inf_none {csp : CSP} {var : Var}
    {rec : Snapshot → FunctionLog → Option Snapshot × Snapshot × FunctionLog}
    {acc : Option Snapshot × Snapshot × FunctionLog} {val : Val}
    (hacc : acc.1 = none)
    (hinf : (inference csp (Function.update acc.2.1 var {val}) (get_all_arcs csp)).1 = true)
    (hres : (rec (inference csp (Function.update acc.2.1 var {val}) (get_all_arcs csp)).2 acc.2.2).1 = none) :
    tryStep csp var rec acc val =
      (none, acc.2.1,
        (rec (inference csp (Function.update acc.2.1 var {val}) (get_all_arcs csp)).2 acc.2.2).2.2) := by
  unfold tryStep
  rw [hacc]
  simp only [is_consistent_with_assignment, if_true, hinf]
  rw [hres]

theorem tryStep_eq_of_inf_false {csp : CSP} {var : Var}
    {rec : Snapshot → FunctionLog → Option Snapshot × Snapshot × FunctionLog}
    {acc : Option Snapshot × Snapshot × FunctionLog} {val : Val}
    (hacc : acc.1 = none)
    (hinf : ¬(inference csp (Function.update acc.2.1 var {val}) (get_all_arcs csp)).1 = true) :
    tryStep csp var rec acc val = acc := by
  unfold tryStep
  rw [hacc]
  simp [hinf]

/-- If the value loop produced a `return` value, some candidate value was
tried, propagated consistently and its recursive call returned it. -/
theorem foldl_tryStep_some (csp : CSP) (var : Var)
    (rec : Snapshot → FunctionLog → Option Snapshot × Snapshot × FunctionLog) :
    ∀ (vals : List Val) (acc : Option Snapshot × Snapshot × FunctionLog) (s : Snapshot),
      acc.1 = none →
      (vals.foldl (tryStep csp var rec) acc).1 = some s →
      ∃ val ∈ vals, ∃ L,
        (inference csp (Function.update acc.2.1 var {val}) (get_all_arcs csp)).1 = true ∧
        (rec (inference csp (Function.update acc.2.1 var {val}) (get_all_arcs csp)).2 L).1 = some s := by
  intro vals
  induction vals with
  | nil =>
    intro acc s hacc hfold
    simp only [List.foldl_nil] at hfold
    rw [hacc] at hfold
    exact Option.noConfusion hfold
  | cons val rest ih =>
    intro acc s hacc hfold
    rw [List.foldl_cons] at hfold
    by_cases hinf : (inference csp (Function.update acc.2.1 var {val}) (get_all_arcs csp)).1 = true
    · match hres : (rec (inference csp (Function.update acc.2.1 var {val}) (get_all_arcs csp)).2 acc.2.2).1 with
      | some s'' =>
        rw [tryStep_eq_of_inf_some hacc hinf hres] at hfold
        rw [foldl_tryStep_frozen csp var rec rest _ s'' rfl] at hfold
        simp only [Option.some.injEq] at hfold
        exact ⟨val, List.mem_cons_self _ _, acc.2.2, hinf, by rw [hres, hfold]⟩
      | none =>
        rw [tryStep_eq_of_inf_none hacc hinf hres] at hfold
        rcases ih _ s rfl hfold with ⟨val', hval', L, hinf', hres'⟩
        exact ⟨val', List.mem_cons_of_mem _ hval', L, hinf', hres'⟩
    · rw [tryStep_eq_of_inf_false hacc hinf] at hfold
      rcases ih _ s hacc hfold with ⟨val', hval', L, hinf', hres'⟩
      exact ⟨val', List.mem_cons_of_mem _ hval', L, hinf', hres'⟩

/-- Nonempty domains survive a successful `inference` call. -/
theorem inference_nonempty {csp : CSP} {a : Snapshot} {q : List (Var × Var)}
    (h : (inference csp a q).1 = true) (v : Var) (hv : a v ≠ ∅) :
    (inference csp a q).2 v ≠ ∅ :=
  inferenceLoop_nonempty csp _ a q h v hv

/-- When no variable is pending, `backtrack` returns its snapshot. -/
theorem backtrackFull_all_assigned {csp : CSP} {fuel : Nat} {a : Snapshot}
    {log : FunctionLog} (h : select_unassigned_variable csp.vars a = none) :
    (backtrackFull csp (fuel + 1) a log).1 = some a := by
  unfold backtrackFull
  rw [h]

/-- Soundness of `backtrack` on a well-formed, symmetric, fully-added
graph: starting from an arc-consistent snapshot with no empty domain,
any returned snapshot is a solution (any fuel, any counter state). -/
theorem backtrackFull_sound (csp : CSP) (hwf : csp.WF) (hsym : csp.Symmetric)
    (hkeys : csp.KeysAdded) :
    ∀ (fuel : Nat) (a : Snapshot) (log : FunctionLog) (s : Snapshot),
      (∀ v ∈ csp.vars, a v ≠ ∅) → ArcConsistent csp a →
      (backtrackFull csp fuel a log).1 = some s → isSolution csp s := by
  intro fuel
  induction fuel with
  | zero =>
    intro a log s _ _ h
    exact Option.noConfusion h
  | succ fuel ih =>
    intro a log s hne hac h
    match hsel : select_unassigned_variable csp.vars a with
    | none =>
      rw [backtrackFull_all_assigned hsel] at h
      cases h
      constructor
      · intro v hv
        have hle : (a v).card ≤ 1 := select_none_iff.mp hsel v hv
        have hpos : 0 < (a v).card := Finset.card_pos.mpr (Finset.nonempty_iff_ne_empty.mpr (hne v hv))
        omega
      · intro e he p hp vi hvi vj hvj
        have hreg : tableOf csp e.1 p.1 = some p.2 := by
          unfold tableOf
          rw [dictFind_eq_some_of_nodup hwf.1 he]
          simp only [Option.some_bind]
          exact dictFind_eq_some_of_nodup (hwf.2 e he) hp
        have hcons : Consistent csp a e.1 p.1 := hac e.1 p.1 (by
          unfold Registered
          rw [hreg]
          rfl)
        have htD : tableOfD csp e.1 p.1 = p.2 := by
          unfold tableOfD
          rw [hreg]
          rfl
        rcases hcons vi hvi with ⟨vj', hvj', hmem⟩
        rw [htD] at hmem
        have hp1 : p.1 ∈ csp.vars := (hkeys e he).2 p hp
        have hcard : (a p.1).card = 1 := by
          have hle : (a p.1).card ≤ 1 := select_none_iff.mp hsel p.1 hp1
          have hpos : 0 < (a p.1).card :=
            Finset.card_pos.mpr (Finset.nonempty_iff_ne_empty.mpr (hne p.1 hp1))
          omega
        rcases Finset.card_eq_one.mp hcard with ⟨x, hx⟩
        rw [hx] at hvj hvj'
        rw [Finset.mem_singleton.mp hvj, ← Finset.mem_singleton.mp hvj']
        exact hmem
    | some var =>
      have hstep : (backtrackFull csp (fuel + 1) a log).1 =
          ((order_domain_values var a).foldl
            (tryStep csp var (backtrackFull csp fuel))
            (none, a, ⟨log.calls + 1, log.failures⟩)).1 := by
        unfold backtrackFull
        rw [hsel]
        simp only
        match (List.foldl (tryStep csp var (backtrackFull csp fuel))
            (none, a, ⟨log.calls + 1, log.failures⟩) (order_domain_values var a)).1 with
        | some s => rfl
        | none => rfl
      rw [hstep] at h
      rcases foldl_tryStep_some csp var (backtrackFull csp fuel)
        (order_domain_values var a) _ s rfl h with ⟨val, hval, L, hinf, hres⟩
      refine ih (inference csp (Function.update a var {val}) (get_all_arcs csp)).2 L s ?_ ?_ hres
      · intro v hv
        refine inference_nonempty hinf v ?_
        by_cases hvvar : v = var
        · rw [hvvar, Function.update_same]
          simp
        · rw [Function.update_noteq hvvar]
          exact hne v hv
      · exact inference_sound hwf hsym _ hinf

/-- Claim C1 counterexample input: `backtracking_search csp2` discards the
failure of the initial AC-3 pass. -/
theorem C1_counterexample :
    backtracking_search csp2 = Except.ok (some (searchSnap csp2)) ∧
    searchSnap csp2 0 = ∅ ∧
    ¬isSolution csp2 (searchSnap csp2) :=
  ⟨rfl, by decide, by decide⟩

/-- C1 (amended): soundness of the solver's result for every well-formed
graph (real-dict constraint store, both-ways registration as the data
model requires, constraint keys added as variables, non-empty domains at
construction), provided the initial global AC-3 pass reports success —
the source discards that flag, which is what the counterexample exploits.
Under these hypotheses any snapshot returned as `Solved` by
`backtracking_search` is a solution: every variable's domain has exactly
one value and every registered constraint table contains the decided
pair. -/
theorem C1_amended_soundness (csp : CSP) (hwf : csp.WF) (hsym : csp.Symmetric)
    (hkeys : csp.KeysAdded) (hdom : ∀ v ∈ csp.vars, csp.domains v ≠ ∅)
    (hinit : (inference csp csp.domains (get_all_arcs csp)).1 = true)
    (s : Snapshot) (hs : backtracking_search csp = Except.ok (some s)) :
    isSolution csp s := by
  unfold backtracking_search backtracking_searchLog at hs
  by_cases hv : csp.vars = []
  · rw [if_pos hv] at hs
    exact Except.noConfusion hs
  · rw [if_neg hv] at hs
    simp only at hs
    have h' : (backtrackFull csp
        (btFuel csp (inference csp csp.domains (get_all_arcs csp)).2)
        (inference csp csp.domains (get_all_arcs csp)).2 ⟨0, 0⟩).1 = some s := by
      injection hs
    refine backtrackFull_sound csp hwf hsym hkeys _ _ _ s ?_ ?_ h'
    · intro v hv'
      exact inference_nonempty hinit v (hdom v hv')
    · exact inference_sound hwf hsym _ hinit

theorem search_eq_searchSnap {csp : CSP} (h : isSolved csp = true) :
    backtracking_search csp = Except.ok (some (searchSnap csp)) := by
  unfold isSolved at h
  unfold searchSnap
  cases hbs : backtracking_search csp with
  | error e =>
    rw [hbs] at h
    exact Bool.noConfusion h
  | ok o =>
    cases o with
    | none =>
      rw [hbs] at h
      exact Bool.noConfusion h
    | some s =>
      rfl

/-- C1 witness: the amended soundness theorem applied to the concrete
solvable graph `csp1`. -/
theorem C1_amended_soundness_witness : isSolution csp1 (searchSnap csp1) :=
  C1_amended_soundness csp1 (by decide) (by decide) (by decide) (by decide)
    (by decide) (searchSnap csp1) (search_eq_searchSnap (by decide))

/-- C2 counterexample: a second `add_variable` call with an id that is
already registered and an empty domain raises no error at all — it
appends the duplicate name and registers the empty domain, contradicting
both claimed failure modes (`DuplicateVariable`, `EmptyDomain`). -/
theorem C2_counterexample :
    (add_variable cspA 0 []).domains 0 = ∅ ∧
    (add_variable cspA 0 []).vars = [0, 0] ∧
    cspA.vars = [0] ∧ cspA.domains 0 = {1} := by
  refine ⟨?_, by decide, by decide, by decide⟩
  show Function.update cspA.domains 0 (List.toFinset []) 0 = ∅
  rw [Function.update_same]
  rfl

/-- C2 (amended): `add_variable(id, domain)` never fails.  It always
registers the variable with the set of the given domain values
(duplicates collapsed), with no duplicate-id check (the id is appended to
the variable list again and its domain and constraint entry are
overwritten) and no empty-domain check (an empty domain is registered as
the empty set). -/
theorem C2_amended_add_variable (csp : CSP) (name : Var) (domain : List Val) :
    (add_variable csp name domain).domains name = domain.toFinset ∧
    (∀ x, x ∈ (add_variable csp name domain).domains name ↔ x ∈ domain) ∧
    (∀ v, v ≠ name → (add_variable csp name domain).domains v = csp.domains v) ∧
    (add_variable csp name domain).vars = csp.vars ++ [name] := by
  refine ⟨?_, ?_, ?_, rfl⟩
  · show Function.update csp.domains name domain.toFinset name = domain.toFinset
    rw [Function.update_same]
  · intro x
    show x ∈ Function.update csp.domains name domain.toFinset name ↔ x ∈ domain
    rw [Function.update_same]
    exact List.mem_toFinset
  · intro v hv
    show Function.update csp.domains name domain.toFinset v = csp.domains v
    exact Function.update_noteq hv _ _

/-- C3: the main-loop step behaviour of `inference` (AC-3).  An empty
queue reports success with the snapshot unchanged; otherwise the front
arc `(i, j)` is popped and: if `revise` changed `domain(i)` and it is now
empty, the whole call returns failure immediately; if `revise` changed
`domain(i)` and it is non-empty, the loop continues on the rest of the
queue with exactly the arcs `(k, i)`, for every neighbour `k` of `i`
with `k ≠ j`, appended at the back; if `revise` changed nothing, the
loop continues on the rest of the queue unchanged. -/
theorem C3_inference_step (csp : CSP) (a : Snapshot) (i j : Var)
    (rest : List (Var × Var)) (fuel : Nat) :
    (inference csp a [] = (true, a)) ∧
    (inferenceLoop csp fuel a [] = (true, a)) ∧
    ((revise csp a i j).1 = true → (revise csp a i j).2 i = ∅ →
      inferenceLoop csp (fuel + 1) a ((i, j) :: rest) = (false, (revise csp a i j).2)) ∧
    ((revise csp a i j).1 = true → (revise csp a i j).2 i ≠ ∅ →
      inferenceLoop csp (fuel + 1) a ((i, j) :: rest) =
        inferenceLoop csp fuel (revise csp a i j).2 (rest ++ newArcs csp i j)) ∧
    (newArcs csp i j = ((neighbors csp i).filter (fun k => k ≠ j)).map (fun k => (k, i))) ∧
    ((revise csp a i j).1 = false →
      inferenceLoop csp (fuel + 1) a ((i, j) :: rest) = inferenceLoop csp fuel a rest) :=
  ⟨inferenceLoop_nil csp _ a, inferenceLoop_nil csp fuel a,
    fun h he => inferenceLoop_cons_empty fuel rest h he,
    fun h he => inferenceLoop_cons_cont fuel rest h he,
    rfl,
    fun h => inferenceLoop_cons_false fuel rest h⟩

/-- C3 witness: the step equations at concrete inputs — on `csp2` the arc
`(0, 1)` revises variable 0 to the empty domain and the loop fails at
once; on `csp3` the same arc shrinks variable 0 to `{1}` and the loop
continues with the single new arc `(2, 0)` appended. -/
theorem C3_inference_step_witness :
    (inferenceLoop csp2 3 csp2.domains [(0, 1), (1, 0)] =
      (false, (revise csp2 csp2.domains 0 1).2)) ∧
    (inferenceLoop csp3 3 csp3.domains [(0, 1)] =
      inferenceLoop csp3 2 (revise csp3 csp3.domains 0 1).2 ([] ++ newArcs csp3 0 1)) ∧
    newArcs csp3 0 1 = [(2, 0)] :=
  ⟨(C3_inference_step csp2 csp2.domains 0 1 [(1, 0)] 2).2.2.1 (by decide) (by decide),
    (C3_inference_step csp3 csp3.domains 0 1 [] 2).2.2.2.1 (by decide) (by decide),
    by decide⟩

/-- C4: postcondition of `revise`.  For every snapshot and arc `(i, j)`
with a registered constraint table `t`, after `revise(snapshot, i, j)`
the domain of `i` equals its previous value minus exactly the values with
no supporting partner in `snapshot[j]` (equivalently: the previous values
filtered to those with a support); every other variable's domain is
unchanged; and the returned boolean is `true` iff `snapshot[i]`
changed. -/
theorem C4_revise_spec (csp : CSP) (a : Snapshot) (i j : Var)
    (t : List (Val × Val)) (h : tableOf csp i j = some t) :
    ((revise csp a i j).2 i = (a i).filter (fun vi => ∃ vj ∈ a j, (vi, vj) ∈ t)) ∧
    (∀ v, v ≠ i → (revise csp a i j).2 v = a v) ∧
    ((revise csp a i j).1 = true ↔ (revise csp a i j).2 i ≠ a i) := by
  have htD : tableOfD csp i j = t := by
    unfold tableOfD
    rw [h]
    rfl
  refine ⟨?_, fun v hv => revise_apply_ne csp a i j v hv, revise_fst_iff csp a i j⟩
  rw [revise_apply_i, htD]

/-- C4 witness: `revise` on the arc `(0, 1)` of `csp3` removes value `1`
from variable 0 (no support in `{0}`), leaves variable 1 untouched, and
reports the change. -/
theorem C4_revise_spec_witness :
    ((revise csp3 csp3.domains 0 1).2 0 =
      (csp3.domains 0).filter (fun vi => ∃ vj ∈ csp3.domains 1, (vi, vj) ∈ [(0, 1), (1, 0)])) ∧
    (∀ v, v ≠ 0 → (revise csp3 csp3.domains 0 1).2 v = csp3.domains v) ∧
    ((revise csp3 csp3.domains 0 1).1 = true ↔
      (revise csp3 csp3.domains 0 1).2 0 ≠ csp3.domains 0) :=
  C4_revise_spec csp3 csp3.domains 0 1 [(0, 1), (1, 0)] (by decide)

/-- C5: monotonic contraction of propagation.  For every snapshot and
every initial arc queue, after any run of `inference` — with any fuel for
the underlying loop, whether it reports success or failure — every
variable's domain is a subset of its domain before the run. -/
theorem C5_inference_monotone (csp : CSP) (a : Snapshot) (q : List (Var × Var)) (v : Var) :
    (inference csp a q).2 v ⊆ a v ∧
    ∀ fuel, (inferenceLoop csp fuel a q).2 v ⊆ a v :=
  ⟨inferenceLoop_subset csp _ a q v, fun fuel => inferenceLoop_subset csp fuel a q v⟩

/-- C6: branch isolation (frame property) of the recursive search.  For
every snapshot passed to `backtrack` the caller's `assignment` dictionary
— threaded through the call as explicit state — is unchanged when the
call returns, whatever the result and fuel and counter state; moreover no
single iteration of the value loop writes the caller's dictionary: each
candidate value is tried on an independent copy
(`Function.update acc.2.1 var {val}` built from the caller's state), and
a failed branch's copy is dropped with no undo. -/
theorem C6_backtrack_frame (csp : CSP) (fuel : Nat) (a : Snapshot) (log : FunctionLog) :
    (backtrackFull csp fuel a log).2.1 = a ∧
    (∀ (var : Var)
      (rec : Snapshot → FunctionLog → Option Snapshot × Snapshot × FunctionLog)
      (acc : Option Snapshot × Snapshot × FunctionLog) (val : Val),
      (tryStep csp var rec acc val).2.1 = acc.2.1) ∧
    (∀ (var : Var) (vals : List Val) (acc : Option Snapshot × Snapshot × FunctionLog),
      (vals.foldl (tryStep csp var (backtrackFull csp fuel)) acc).2.1 = acc.2.1) :=
  ⟨backtrackFull_post csp fuel a log,
    fun var rec acc val => tryStep_post csp var rec acc val,
    fun var vals acc => foldl_tryStep_post csp var (backtrackFull csp fuel) vals acc⟩

/-- C7: most-constrained-variable selection.  A selected variable is a
pending one (domain size above 1) of minimal domain size among the
pending variables and the first such in key order; no selection happens
exactly when no variable is pending, in which case `backtrack`
immediately returns its snapshot as the solution. -/
theorem C7_select_spec (keys : List Var) (a : Snapshot) :
    (∀ v, select_unassigned_variable keys a = some v →
      v ∈ keys ∧ 1 < (a v).card ∧
      (∀ w ∈ keys, 1 < (a w).card → (a v).card ≤ (a w).card) ∧
      ∃ l₁ l₂, keys = l₁ ++ v :: l₂ ∧
        ∀ w ∈ l₁, 1 < (a w).card → (a v).card < (a w).card) ∧
    (select_unassigned_variable keys a = none ↔ ∀ v ∈ keys, (a v).card ≤ 1) ∧
    (∀ (csp : CSP) (fuel : Nat) (log : FunctionLog),
      select_unassigned_variable csp.vars a = none →
      (backtrackFull csp (fuel + 1) a log).1 = some a) :=
  ⟨fun v h => select_some_spec h, select_none_iff,
    fun csp fuel log h => backtrackFull_all_assigned h⟩

/-- C7 witness: on the domains of `csp3` (sizes 2, 1, 2 for keys 0, 1, 2)
the selection returns variable 0 — pending, of minimal pending size,
first in key order — and on the all-decided domains of `csp9` no variable
is selected and `backtrack` returns the snapshot. -/
theorem C7_select_spec_witness :
    (0 ∈ [0, 1, 2] ∧ 1 < (csp3.domains 0).card ∧
      (∀ w ∈ [0, 1, 2], 1 < (csp3.domains w).card →
        (csp3.domains 0).card ≤ (csp3.domains w).card) ∧
      ∃ l₁ l₂, ([0, 1, 2] : List Var) = l₁ ++ 0 :: l₂ ∧
        ∀ w ∈ l₁, 1 < (csp3.domains w).card → (csp3.domains 0).card < (csp3.domains w).card) ∧
    (backtrackFull csp9 1 csp9.domains ⟨0, 0⟩).1 = some csp9.domains :=
  ⟨(C7_select_spec [0, 1, 2] csp3.domains).1 0 (by decide),
    (C7_select_spec csp9.vars csp9.domains).2.2 csp9 0 ⟨0, 0⟩ (by decide)⟩

/-- C8: idempotence of arc consistency on a well-formed symmetric store.
If `inference` seeded with the full arc set has run to successful
completion on a snapshot, running it again with the full arc set reports
success and leaves every variable's domain unchanged. -/
theorem C8_inference_idempotent (csp : CSP) (a : Snapshot) (hwf : csp.WF)
    (hsym : csp.Symmetric)
    (hsucc : (inference csp a (get_all_arcs csp)).1 = true) :
    (inference csp ((inference csp a (get_all_arcs csp)).2) (get_all_arcs csp)).1 = true ∧
    ∀ v, (inference csp ((inference csp a (get_all_arcs csp)).2) (get_all_arcs csp)).2 v =
      (inference csp a (get_all_arcs csp)).2 v := by
  have hac := inference_sound hwf hsym a hsucc
  have hfix : inference csp ((inference csp a (get_all_arcs csp)).2) (get_all_arcs csp) =
      (true, (inference csp a (get_all_arcs csp)).2) :=
    inferenceLoop_fix csp _ _ _
      (fun p hp => registered_of_mem_get_all_arcs hwf hp) hac
  exact ⟨by rw [hfix], fun v => by rw [hfix]⟩

/-- C8 witness: the idempotence theorem applied to the concrete graph
`csp1` and its initial domains. -/
theorem C8_inference_idempotent_witness :
    (inference csp1 ((inference csp1 csp1.domains (get_all_arcs csp1)).2) (get_all_arcs csp1)).1 = true ∧
    ∀ v, (inference csp1 ((inference csp1 csp1.domains (get_all_arcs csp1)).2) (get_all_arcs csp1)).2 v =
      (inference csp1 csp1.domains (get_all_arcs csp1)).2 v :=
  C8_inference_idempotent csp1 csp1.domains (by decide) (by decide) (by decide)

/-- C9 counterexample: the counters are not reset at the top-level solve
call.  Running `backtracking_search` on `csp9` (whose solve makes exactly
one `backtrack` call and no failure) with prior counter state `(5, 7)`
leaves `(6, 7)` — prior state plus this call — not `(1, 0)`, the counts
of this call alone; the `(1, 0)` reading requires starting from zero. -/
theorem C9_counterexample :
    (backtracking_searchLog csp9 ⟨5, 7⟩).2 ≠ (⟨1, 0⟩ : FunctionLog) ∧
    (backtracking_searchLog csp9 ⟨5, 7⟩).2 = (⟨6, 7⟩ : FunctionLog) ∧
    (backtracking_searchLog csp9 ⟨0, 0⟩).2 = (⟨1, 0⟩ : FunctionLog) := by
  refine ⟨?_, by decide, by decide⟩
  decide

/-- C9 (amended): the counters are reset at the *end* of each
`solve_case` call (after the counts are printed), not at the start of the
top-level solve.  Hence `solve_case` always leaves the counters at zero
for the next call; the counter state after `backtracking_search` is the
prior state plus this call's own counts; and therefore the printed counts
reflect only the current solve call whenever the prior state is zero —
which the end-of-call reset (and the zero initial state) maintains across
successive `solve_case` calls. -/
theorem C9_amended_counters (csp : CSP) (log : FunctionLog) (hvars : csp.vars ≠ []) :
    (solve_case csp log).2 = (⟨0, 0⟩ : FunctionLog) ∧
    (solve_case csp log).1 = some (log.add (backtracking_searchLog csp ⟨0, 0⟩).2) ∧
    (backtracking_searchLog csp log).2 = log.add (backtracking_searchLog csp ⟨0, 0⟩).2 := by
  have hok : ∀ L : FunctionLog, backtracking_searchLog csp L =
      (Except.ok (backtrackFull csp
          (btFuel csp (inference csp csp.domains (get_all_arcs csp)).2)
          (inference csp csp.domains (get_all_arcs csp)).2 L).1,
        (backtrackFull csp
          (btFuel csp (inference csp csp.domains (get_all_arcs csp)).2)
          (inference csp csp.domains (get_all_arcs csp)).2 L).2.2) := by
    intro L
    unfold backtracking_searchLog
    rw [if_neg hvars]
  have hadd : (backtracking_searchLog csp log).2 =
      log.add (backtracking_searchLog csp ⟨0, 0⟩).2 := by
    rw [hok log, hok ⟨0, 0⟩]
    exact (backtrackFull_log csp _ _ log).2
  refine ⟨?_, ?_, hadd⟩
  · unfold solve_case
    rw [hok log]
  · unfold solve_case
    rw [hok log]
    simp only
    have h2 : (backtracking_searchLog csp log).2 =
        (backtrackFull csp
          (btFuel csp (inference csp csp.domains (get_all_arcs csp)).2)
          (inference csp csp.domains (get_all_arcs csp)).2 log).2.2 := by
      rw [hok log]
    rw [← h2, hadd]

/-- C9 witness: the amended counter behaviour at the concrete graph
`csp9` and prior counter state `(5, 7)`. -/
theorem C9_amended_counters_witness :
    (solve_case csp9 ⟨5, 7⟩).2 = (⟨0, 0⟩ : FunctionLog) ∧
    (solve_case csp9 ⟨5, 7⟩).1 = some (FunctionLog.add ⟨5, 7⟩ (backtracking_searchLog csp9 ⟨0, 0⟩).2) ∧
    (backtracking_searchLog csp9 ⟨5, 7⟩).2 = FunctionLog.add ⟨5, 7⟩ (backtracking_searchLog csp9 ⟨0, 0⟩).2 :=
  C9_amended_counters csp9 ⟨5, 7⟩ (by decide)

/-- C10: the assertion at the solve entry point.  On a graph with no
registered variables `backtracking_search` raises (modelled as
`Except.error ()`) instead of returning a `Solved` or `Exhausted` result;
with at least one variable added, the assertion never fires and the call
returns an ordinary (`ok`) result. -/
theorem C10_assert_guard (csp : CSP) :
    (csp.vars = [] → backtracking_search csp = Except.error ()) ∧
    (csp.vars ≠ [] → exceptOk (backtracking_search csp) = true) := by
  constructor
  · intro h
    unfold backtracking_search backtracking_searchLog
    rw [if_pos h]
  · intro h
    unfold exceptOk backtracking_search backtracking_searchLog
    rw [if_neg h]

/-- C10 witness: the assertion fires on the freshly-constructed empty
graph and does not fire on `csp9`, which has one variable. -/
theorem C10_assert_guard_witness :
    backtracking_search CSP.empty = Except.error () ∧
    exceptOk (backtracking_search csp9) = true :=
  ⟨(C10_assert_guard CSP.empty).1 rfl, (C10_assert_guard csp9).2 (by decide)⟩
